import Mathlib

/-!
Shallow embedding of the in-memory key-value store backend
(`database/leveldb/mem_db.go`): the `MemDB` map, its iterators and batches.
Keys and values are byte sequences, modelled as `List Nat`; a Go `[]byte`
that may be `nil` is modelled as `Option (List Nat)` with `none` for `nil`.
The Go `map[string][]byte` is modelled as an association list kept with
unique keys (`Set` overwrites by removing the old binding).
-/

namespace MemDBModel

abbrev Bytes : Type := List Nat

/-- A Go `[]byte` value that may be `nil` (`none` = the `nil` slice). -/
abbrev GoBytes : Type := Option Bytes

/-- Lexicographic byte comparison: the semantics of Go `bytes.Compare` and of
Go string comparison operators used in `mem_db.go`. -/
def cmp : Bytes → Bytes → Ordering
  | [], [] => Ordering.eq
  | [], _ :: _ => Ordering.lt
  | _ :: _, [] => Ordering.gt
  | a :: as, b :: bs =>
    if a < b then Ordering.lt
    else if b < a then Ordering.gt
    else cmp as bs

/-- Go `key >= point` on strings / `bytes.Compare(key, point) >= 0`. -/
def strGe (a b : Bytes) : Bool := cmp a b != Ordering.lt

/-- Go `a <= b` on strings: the ascending order used by `sort.Strings`. -/
def strLe (a b : Bytes) : Bool := cmp a b != Ordering.gt

/-- Go `a < b` on strings / `bytes.Compare(a, b) < 0`. -/
def strLt (a b : Bytes) : Bool := cmp a b == Ordering.lt

/-- Go `strings.HasPrefix(s, pre)`. -/
def hasPfx (s pre : Bytes) : Bool := pre.isPrefixOf s

/-- `strLe` as a proposition, the sorting relation for `sort.Strings`. -/
def keyLe (a b : Bytes) : Prop := strLe a b = true

instance : DecidableRel keyLe := fun a b => instDecidableEqBool _ _

structure MemDB where
  db : List (Bytes × GoBytes)
deriving DecidableEq

def NewMemDB : MemDB := ⟨[]⟩

def MemDB.keysList (d : MemDB) : List Bytes := d.db.map Prod.fst

/-- Go `db.db[string(key)]`: the stored value, or `nil` when absent. -/
def MemDB.get (d : MemDB) (k : Bytes) : GoBytes :=
  match d.db.find? (fun p => p.1 == k) with
  | some p => p.2
  | none => none

/-- Go `db.db[string(key)] = value`. -/
def MemDB.set (d : MemDB) (k : Bytes) (v : GoBytes) : MemDB :=
  ⟨(k, v) :: d.db.filter (fun p => !(p.1 == k))⟩

/-- Go `delete(db.db, string(key))`. -/
def MemDB.delete (d : MemDB) (k : Bytes) : MemDB :=
  ⟨d.db.filter (fun p => !(p.1 == k))⟩

/-- The Go map invariant: keys are unique. -/
def MemDB.WF (d : MemDB) : Prop := d.keysList.Nodup

instance (d : MemDB) : Decidable d.WF := List.nodupDecidable d.keysList

structure MemDBIterator where
  last : Int
  keys : List Bytes
deriving DecidableEq

/-- Go `(*memDBIterator).Next`. -/
def MemDBIterator.next (it : MemDBIterator) : Bool × MemDBIterator :=
  if (it.keys.length : Int) - 1 ≤ it.last then (false, it)
  else (true, { it with last := it.last + 1 })

/-- Go `(*memDBIterator).Key` (`it.keys[it.last]`); total with a default for
positions the Go code would panic on. -/
def MemDBIterator.keyD (it : MemDBIterator) : Bytes :=
  if it.last < 0 then [] else it.keys.getD it.last.toNat []

/-- Go `(*memDBIterator).Seek`: first index whose key is `>= point`. -/
def MemDBIterator.seek (it : MemDBIterator) (point : Bytes) : Bool × MemDBIterator :=
  match it.keys.findIdx? (fun key => strGe key point) with
  | some i => (true, { it with last := (i : Int) })
  | none => (false, it)

/-- Go `newMemDBIteratorWithArgs`: starts at `-1`, then seeks to `start`
when `start` is non-nil (the Seek result is discarded). -/
def newMemDBIteratorWithArgs (keys : List Bytes) (start : Option Bytes) : MemDBIterator :=
  match start with
  | none => { last := -1, keys := keys }
  | some s => (MemDBIterator.seek { last := -1, keys := keys } s).2

/-- Go `(*MemDB).IteratorPrefix`: keys with the given byte-prefix, sorted
ascending, cursor before-first. -/
def MemDB.prefixIterator (d : MemDB) (pre : Bytes) : MemDBIterator :=
  { last := -1,
    keys := List.insertionSort keyLe (d.keysList.filter (fun key => hasPfx key pre)) }

/-- Go `(*MemDB).Iterator`: `IteratorPrefix([]byte{})`. -/
def MemDB.iterator (d : MemDB) : MemDBIterator := d.prefixIterator []

/-- Go `(*MemDB).getSortedKeys`: keys `>= start` sorted ascending, reversed
when `reverse`; a nil `start` compares as the empty string. -/
def MemDB.getSortedKeys (d : MemDB) (start : Option Bytes) (reverse : Bool) : List Bytes :=
  let ks := List.insertionSort keyLe
    (d.keysList.filter (fun key => strGe key (start.getD [])))
  if reverse then ks.reverse else ks

/-- Go `(*MemDB).IteratorPrefixWithStart`; the `pre` argument is unused,
exactly as in the source. -/
def MemDB.iteratorPrefixWithStart (d : MemDB) (pre start : Option Bytes)
    (isReverse : Bool) : MemDBIterator :=
  newMemDBIteratorWithArgs (d.getSortedKeys start isReverse) start

/-- The standard traversal protocol `for it.Next() { yield it.Key() }`,
with enough fuel to exhaust the captured sequence. -/
def drain : MemDBIterator → Nat → List Bytes
  | _, 0 => []
  | it, n + 1 =>
    if it.next.1 then it.next.2.keyD :: drain it.next.2 n else []

/-- The traversal protocol `for it.Next() { yield (it.Key(), it.Value()) }`,
where `Value` is a live `Get` against the store. -/
def drainKV (d : MemDB) : MemDBIterator → Nat → List (Bytes × GoBytes)
  | _, 0 => []
  | it, n + 1 =>
    if it.next.1 then
      (it.next.2.keyD, d.get it.next.2.keyD) :: drainKV d it.next.2 n
    else []

inductive OpType where
  | set
  | delete
deriving DecidableEq

/-- Go `operation`: a tagged batch entry. -/
structure Operation where
  opType : OpType
  key : Bytes
  value : GoBytes
deriving DecidableEq

/-- Go `memDBBatch` (the pending operation list; the store reference is
passed explicitly at `write`). -/
structure MemDBBatch where
  ops : List Operation
deriving DecidableEq

/-- Go `(*memDBBatch).Set`: append a set operation. -/
def MemDBBatch.set (b : MemDBBatch) (k : Bytes) (v : GoBytes) : MemDBBatch :=
  ⟨b.ops ++ [⟨OpType.set, k, v⟩]⟩

/-- Go `(*memDBBatch).Delete`: append a delete operation (value nil). -/
def MemDBBatch.delete (b : MemDBBatch) (k : Bytes) : MemDBBatch :=
  ⟨b.ops ++ [⟨OpType.delete, k, none⟩]⟩

/-- Go `(*memDBBatch).Write`: apply the pending operations in order. -/
def MemDBBatch.write (b : MemDBBatch) (d : MemDB) : MemDB :=
  b.ops.foldl
    (fun acc op =>
      match op.opType with
      | OpType.set => acc.set op.key op.value
      | OpType.delete => acc.delete op.key)
    d

/-- Applying one store mutation (`Set`/`Delete` method call). -/
def applyOp (d : MemDB) (op : Operation) : MemDB :=
  match op.opType with
  | OpType.set => d.set op.key op.value
  | OpType.delete => d.delete op.key

/-- Applying a sequence of store mutations in order. -/
def applyOps (d : MemDB) (ops : List Operation) : MemDB := ops.foldl applyOp d

/-- Does an operation target key `k`? -/
def touches (k : Bytes) (op : Operation) : Bool := op.key == k

/-- The last operation in the sequence that targets `k`, if any. -/
def lastOpOn (k : Bytes) (ops : List Operation) : Option Operation :=
  (ops.filter (touches k)).getLast?

/-- The three-key store of the spec's example scenario:
`Set "a" "1"; Set "c" "3"; Set "b" "2"`. -/
def db3 : MemDB :=
  ((NewMemDB.set [97] (some [49])).set [99] (some [51])).set [98] (some [50])

lemma cmp_self (a : Bytes) : cmp a a = Ordering.eq := by
  induction a with
  | nil => rfl
  | cons x xs ih => simp [cmp, ih]

lemma cmp_eq_eq_iff (a : Bytes) : ∀ b : Bytes, cmp a b = Ordering.eq ↔ a = b := by
  induction a with
  | nil => intro b; cases b <;> simp [cmp]
  | cons x xs ih =>
    intro b
    cases b with
    | nil => simp [cmp]
    | cons y ys =>
      rcases Nat.lt_trichotomy x y with h | h | h
      · have hne : x ≠ y := Nat.ne_of_lt h
        simp [cmp, h, hne]
      · subst h
        simp [cmp, ih]
      · have hne : x ≠ y := (Nat.ne_of_lt h).symm
        have hnlt : ¬ x < y := Nat.lt_asymm h
        simp [cmp, h, hne, hnlt]

lemma cmp_swap (a : Bytes) : ∀ b : Bytes, (cmp a b).swap = cmp b a := by
  induction a with
  | nil => intro b; cases b <;> rfl
  | cons x xs ih =>
    intro b
    cases b with
    | nil => rfl
    | cons y ys =>
      rcases Nat.lt_trichotomy x y with h | h | h
      · have hnlt : ¬ y < x := Nat.lt_asymm h
        simp [cmp, h, hnlt, Ordering.swap]
      · subst h
        simp [cmp, ih]
      · have hnlt : ¬ x < y := Nat.lt_asymm h
        simp [cmp, h, hnlt, Ordering.swap]

lemma cmp_lt_trans (a : Bytes) :
    ∀ b c : Bytes, cmp a b = Ordering.lt → cmp b c = Ordering.lt →
      cmp a c = Ordering.lt := by
  induction a with
  | nil =>
    intro b c hab hbc
    cases b with
    | nil => exact absurd hab (by simp [cmp])
    | cons y ys =>
      cases c with
      | nil => exact absurd hbc (by simp [cmp])
      | cons z zs => simp [cmp]
  | cons x xs ih =>
    intro b c hab hbc
    cases b with
    | nil => exact absurd hab (by simp [cmp])
    | cons y ys =>
      cases c with
      | nil => exact absurd hbc (by simp [cmp])
      | cons z zs =>
        simp only [cmp] at hab hbc ⊢
        rcases Nat.lt_trichotomy x y with hxy | hxy | hxy
        · rcases Nat.lt_trichotomy y z with hyz | hyz | hyz
          · simp [Nat.lt_trans hxy hyz]
          · subst hyz; simp [hxy]
          · rcases Nat.lt_trichotomy x z with hxz | hxz | hxz
            · simp [hxz]
            · subst hxz
              simp [Nat.lt_asymm hxy, hxy] at hbc
            · simp [Nat.lt_asymm hyz, hyz] at hbc
        · subst hxy
          rcases Nat.lt_trichotomy x z with hxz | hxz | hxz
          · simp [hxz]
          · subst hxz
            simp only [lt_irrefl, if_neg (lt_irrefl x)] at hab hbc ⊢
            exact ih ys zs hab hbc
          · simp [Nat.lt_asymm hxz, hxz] at hbc
        · simp [Nat.lt_asymm hxy, hxy] at hab

lemma strLe_iff (a b : Bytes) : strLe a b = true ↔ cmp a b ≠ Ordering.gt := by
  cases hc : cmp a b <;> simp [strLe, hc] <;> decide

lemma strGe_iff (a b : Bytes) : strGe a b = true ↔ cmp a b ≠ Ordering.lt := by
  cases hc : cmp a b <;> simp [strGe, hc] <;> decide

lemma strLt_iff (a b : Bytes) : strLt a b = true ↔ cmp a b = Ordering.lt := by
  cases hc : cmp a b <;> simp [strLt, hc] <;> decide

lemma keyLe_total (a b : Bytes) : keyLe a b ∨ keyLe b a := by
  unfold keyLe
  rw [strLe_iff, strLe_iff]
  cases hab : cmp a b with
  | lt => left; simp
  | eq => left; simp
  | gt =>
    right
    have := cmp_swap a b
    rw [hab] at this
    simp [Ordering.swap] at this
    simp [← this]

lemma keyLe_trans (a b c : Bytes) (h1 : keyLe a b) (h2 : keyLe b c) : keyLe a c := by
  unfold keyLe at *
  rw [strLe_iff] at *
  cases hab : cmp a b with
  | gt => exact absurd hab h1
  | eq =>
    rw [cmp_eq_eq_iff] at hab
    subst hab
    exact h2
  | lt =>
    cases hbc : cmp b c with
    | gt => exact absurd hbc h2
    | eq =>
      rw [cmp_eq_eq_iff] at hbc
      subst hbc
      simp [hab]
    | lt => simp [cmp_lt_trans a b c hab hbc]

instance : IsTotal Bytes keyLe := ⟨keyLe_total⟩

instance : IsTrans Bytes keyLe := ⟨keyLe_trans⟩

lemma strLt_of_keyLe_of_ne (a b : Bytes) (h : keyLe a b) (hne : a ≠ b) :
    strLt a b = true := by
  unfold keyLe at h
  rw [strLe_iff] at h
  rw [strLt_iff]
  cases hab : cmp a b with
  | lt => rfl
  | eq => exact absurd ((cmp_eq_eq_iff a b).mp hab) hne
  | gt => exact absurd hab h

lemma find?_filter_ne (l : List (Bytes × GoBytes)) (k k2 : Bytes) (h : k2 ≠ k) :
    (l.filter (fun p => !(p.1 == k))).find? (fun p => p.1 == k2)
      = l.find? (fun p => p.1 == k2) := by
  induction l with
  | nil => rfl
  | cons p l ih =>
    by_cases hk : p.1 = k
    · have h1 : (p.1 == k) = true := beq_iff_eq.mpr hk
      have h2 : (p.1 == k2) = false := by
        rw [beq_eq_false_iff_ne]
        rw [hk]
        exact fun he => h he.symm
      simp [List.filter_cons, h1, List.find?_cons, h2, ih]
    · have h1 : (p.1 == k) = false := beq_eq_false_iff_ne.mpr hk
      by_cases hk2 : p.1 = k2
      · have h2 : (p.1 == k2) = true := beq_iff_eq.mpr hk2
        simp [List.filter_cons, h1, List.find?_cons, h2]
      · have h2 : (p.1 == k2) = false := beq_eq_false_iff_ne.mpr hk2
        simp [List.filter_cons, h1, List.find?_cons, h2, ih]

lemma get_set_self (d : MemDB) (k : Bytes) (v : GoBytes) : (d.set k v).get k = v := by
  simp [MemDB.get, MemDB.set, List.find?_cons]

lemma get_set_ne (d : MemDB) (k k2 : Bytes) (v : GoBytes) (h : k2 ≠ k) :
    (d.set k v).get k2 = d.get k2 := by
  have h1 : (k == k2) = false := by
    rw [beq_eq_false_iff_ne]
    exact fun he => h he.symm
  simp only [MemDB.get, MemDB.set, List.find?_cons, h1]
  rw [find?_filter_ne d.db k k2 h]

lemma get_not_mem (d : MemDB) (k : Bytes) (h : k ∉ d.keysList) : d.get k = none := by
  have hn : d.db.find? (fun p => p.1 == k) = none := by
    rw [List.find?_eq_none]
    intro p hp hpk
    exact h (List.mem_map.mpr ⟨p, hp, beq_iff_eq.mp hpk⟩)
  simp [MemDB.get, hn]

lemma get_delete_self (d : MemDB) (k : Bytes) : (d.delete k).get k = none := by
  have hn : (d.db.filter (fun p => !(p.1 == k))).find? (fun p => p.1 == k) = none := by
    rw [List.find?_eq_none]
    intro p hp hpk
    have := (List.mem_filter.mp hp).2
    rw [hpk] at this
    exact absurd this (by decide)
  simp [MemDB.get, MemDB.delete, hn]

lemma get_delete_ne (d : MemDB) (k k2 : Bytes) (h : k2 ≠ k) :
    (d.delete k).get k2 = d.get k2 := by
  simp only [MemDB.get, MemDB.delete]
  rw [find?_filter_ne d.db k k2 h]

/-- Traversal characterization: from cursor position `j - 1`, the protocol
yields the keys from index `j` on (truncated by the fuel). -/
lemma drain_eq (fuel : Nat) : ∀ (j : Nat) (keys : List Bytes),
    drain ⟨(j : Int) - 1, keys⟩ fuel = (keys.drop j).take fuel := by
  induction fuel with
  | zero => intro j keys; simp [drain]
  | succ n ih =>
    intro j keys
    by_cases h : keys.length ≤ j
    · have hc : (keys.length : Int) - 1 ≤ (j : Int) - 1 := by
        omega
      have hd : keys.drop j = [] := List.drop_eq_nil_of_le h
      simp [drain, MemDBIterator.next, hc, hd]
    · push_neg at h
      have hc : ¬ ((keys.length : Int) - 1 ≤ (j : Int) - 1) := by
        omega
      have hj : ((j : Int) - 1 + 1) = ((j + 1 : Nat) : Int) - 1 := by
        push_cast
        ring
      have hnext : MemDBIterator.next ⟨(j : Int) - 1, keys⟩
          = (true, ⟨(j : Int) - 1 + 1, keys⟩) := by
        simp [MemDBIterator.next, hc]
      have hkey : MemDBIterator.keyD ⟨(j : Int) - 1 + 1, keys⟩ = keys[j] := by
        have h0 : ¬ ((j : Int) - 1 + 1 < 0) := by omega
        have ht : ((j : Int) - 1 + 1).toNat = j := by omega
        simp only [MemDBIterator.keyD, if_neg h0, ht]
        exact List.getD_eq_getElem keys [] h
      have hrec : drain ⟨(j : Int) - 1 + 1, keys⟩ n = (keys.drop (j + 1)).take n := by
        rw [hj]
        exact ih (j + 1) keys
      have hstep : drain ⟨(j : Int) - 1, keys⟩ (n + 1)
          = MemDBIterator.keyD ⟨(j : Int) - 1 + 1, keys⟩ ::
              drain ⟨(j : Int) - 1 + 1, keys⟩ n := by
        simp only [drain, hnext, if_true]
      rw [hstep, hkey, hrec, List.drop_eq_getElem_cons h, List.take_succ_cons]

/-- From the before-first position, the protocol yields the captured keys
(truncated by the fuel). -/
lemma drain_neg_one (keys : List Bytes) (fuel : Nat) :
    drain ⟨-1, keys⟩ fuel = keys.take fuel := by
  have h := drain_eq fuel 0 keys
  simpa using h

lemma mem_sortFilter (l : List Bytes) (p : Bytes → Bool) (k : Bytes) :
    k ∈ List.insertionSort keyLe (l.filter p) ↔ (k ∈ l ∧ p k = true) :=
  (List.perm_insertionSort keyLe (l.filter p)).mem_iff.trans List.mem_filter

lemma nodup_sortFilter (l : List Bytes) (p : Bytes → Bool) (h : l.Nodup) :
    (List.insertionSort keyLe (l.filter p)).Nodup :=
  (List.perm_insertionSort keyLe (l.filter p)).nodup_iff.mpr (h.filter p)

lemma mem_getSortedKeys (d : MemDB) (start : Option Bytes) (r : Bool) (k : Bytes) :
    k ∈ d.getSortedKeys start r
      ↔ (k ∈ d.keysList ∧ strGe k (start.getD []) = true) := by
  unfold MemDB.getSortedKeys
  cases r <;> simp [mem_sortFilter]

lemma nodup_getSortedKeys (d : MemDB) (h : d.WF) (start : Option Bytes) (r : Bool) :
    (d.getSortedKeys start r).Nodup := by
  unfold MemDB.getSortedKeys
  cases r <;> simp [List.nodup_reverse, nodup_sortFilter _ _ h]

lemma applyOps_concat (d : MemDB) (ops : List Operation) (op : Operation) :
    applyOps d (ops ++ [op]) = applyOp (applyOps d ops) op := by
  simp [applyOps, List.foldl_append]

lemma lastOpOn_concat (k : Bytes) (ops : List Operation) (op : Operation) :
    lastOpOn k (ops ++ [op])
      = if touches k op then some op else lastOpOn k ops := by
  unfold lastOpOn
  rw [List.filter_append]
  by_cases h : touches k op = true
  · simp [h, List.getLast?_concat]
  · have hf : touches k op = false := by
      revert h; cases touches k op <;> simp
    simp [hf]

lemma get_applyOp (d : MemDB) (op : Operation) (k : Bytes) :
    (applyOp d op).get k
      = if touches k op then
          (match op.opType with
           | OpType.set => op.value
           | OpType.delete => none)
        else d.get k := by
  cases hop : op.opType with
  | set =>
    by_cases h : op.key = k
    · have ht : touches k op = true := by simp [touches, h]
      simp [applyOp, hop, ht, h, get_set_self]
    · have ht : touches k op = false := by simp [touches, h]
      have hne : k ≠ op.key := fun he => h he.symm
      simp [applyOp, hop, ht, get_set_ne d op.key k op.value hne]
  | delete =>
    by_cases h : op.key = k
    · have ht : touches k op = true := by simp [touches, h]
      simp [applyOp, hop, ht, h, get_delete_self]
    · have ht : touches k op = false := by simp [touches, h]
      have hne : k ≠ op.key := fun he => h he.symm
      simp [applyOp, hop, ht, get_delete_ne d op.key k hne]

/-- C1 (counterexample): with keys `"a"->"1"`, `"c"->"3"`, `"b"->"2"` inserted
by individual Sets, the Next/Key/Value traversal of
`IteratorPrefixWithStart(nil, "b", false)` does NOT yield
`("b","2"),("c","3")`, and with `reverse=true` it does NOT yield
`("c","3"),("b","2")`: the constructor-time Seek puts the cursor on index 0
and the pre-incrementing Next skips that entry. -/
theorem c1_example_counterexample :
    drainKV db3 (db3.iteratorPrefixWithStart none (some [98]) false)
        (db3.iteratorPrefixWithStart none (some [98]) false).keys.length
      ≠ [([98], some [50]), ([99], some [51])] ∧
    drainKV db3 (db3.iteratorPrefixWithStart none (some [98]) true)
        (db3.iteratorPrefixWithStart none (some [98]) true).keys.length
      ≠ [([99], some [51]), ([98], some [50])] := by
  decide

/-- C1 (amended): after inserting `"a"->"1"`, `"c"->"3"`, `"b"->"2"` via
individual Sets, the Next/Key/Value traversal of
`IteratorPrefixWithStart(nil, "b", false)` yields exactly `("c","3")` and
with `reverse=true` exactly `("b","2")`: the constructor performs
`Seek("b")`, so the first in-range key of the snapshot is skipped by the
Next-before-read protocol. -/
theorem c1_example_traversal :
    drainKV db3 (db3.iteratorPrefixWithStart none (some [98]) false)
        (db3.iteratorPrefixWithStart none (some [98]) false).keys.length
      = [([99], some [51])] ∧
    drainKV db3 (db3.iteratorPrefixWithStart none (some [98]) true)
        (db3.iteratorPrefixWithStart none (some [98]) true).keys.length
      = [([98], some [50])] := by
  decide

/-- C2: for every store with the map invariant and every byte-prefix `pre`,
the `IteratorPrefix(pre)` snapshot holds exactly the stored keys having
`pre` as a byte-prefix, in strictly ascending lexicographic byte order, the
Next/Key traversal yields exactly that snapshot, and `Iterator()` is
`IteratorPrefix` of the empty prefix. -/
theorem c2_prefix_iterator_exact (d : MemDB) (h : d.WF) (pre : Bytes) :
    (∀ k, k ∈ (d.prefixIterator pre).keys
        ↔ (k ∈ d.keysList ∧ hasPfx k pre = true)) ∧
    (d.prefixIterator pre).keys.Pairwise (fun a b => strLt a b = true) ∧
    drain (d.prefixIterator pre) (d.prefixIterator pre).keys.length
      = (d.prefixIterator pre).keys ∧
    d.iterator = d.prefixIterator [] := by
  refine ⟨?_, ?_, ?_, rfl⟩
  · intro k
    exact mem_sortFilter d.keysList (fun key => hasPfx key pre) k
  · have hs : (d.prefixIterator pre).keys.Pairwise keyLe :=
      List.sorted_insertionSort keyLe (d.keysList.filter (fun key => hasPfx key pre))
    have hn : (d.prefixIterator pre).keys.Nodup :=
      nodup_sortFilter d.keysList (fun key => hasPfx key pre) h
    exact (hs.and hn).imp (fun hab => strLt_of_keyLe_of_ne _ _ hab.1 hab.2)
  · show drain ⟨-1, (d.prefixIterator pre).keys⟩ (d.prefixIterator pre).keys.length
        = (d.prefixIterator pre).keys
    rw [drain_neg_one, List.take_length]

theorem c2_prefix_iterator_exact_witness :
    db3.WF ∧
    (([98] : Bytes) ∈ (db3.prefixIterator []).keys
      ↔ (([98] : Bytes) ∈ db3.keysList ∧ hasPfx [98] [] = true)) ∧
    drain (db3.prefixIterator []) (db3.prefixIterator []).keys.length
      = (db3.prefixIterator []).keys :=
  ⟨by decide, (c2_prefix_iterator_exact db3 (by decide) []).1 [98],
   (c2_prefix_iterator_exact db3 (by decide) []).2.2.1⟩

/-- C3: starting from a fresh store, after any sequence of Set/Delete
operations, `Get(k)` returns the value of the last Set on `k` not followed
by a Delete of `k`, and the absent sentinel when the last operation on `k`
was a Delete or when no operation touched `k`. -/
theorem c3_last_writer_wins (ops : List Operation) (k : Bytes) :
    (applyOps NewMemDB ops).get k
      = match lastOpOn k ops with
        | some op =>
          (match op.opType with
           | OpType.set => op.value
           | OpType.delete => none)
        | none => none := by
  induction ops using List.reverseRecOn with
  | nil => rfl
  | append_singleton ops op ih =>
    rw [applyOps_concat, get_applyOp, lastOpOn_concat]
    by_cases h : touches k op = true
    · simp [h]
    · have hf : touches k op = false := by
        revert h; cases touches k op <;> simp
      simp [hf, ih]

/-- C4: `Batch.Write` applies the pending operations in exactly the order
appended by `Batch.Set`/`Batch.Delete`, a single Set operation is the
store's overwrite and a single Delete is the store's remove-if-present;
for the batch `Set("x","1"); Delete("x"); Set("x","2")`, after `Write()`
the store's `Get("x")` is `"2"`. -/
theorem c4_batch_write_in_order :
    (∀ (d : MemDB) (os1 os2 : List Operation),
        MemDBBatch.write ⟨os1 ++ os2⟩ d
          = MemDBBatch.write ⟨os2⟩ (MemDBBatch.write ⟨os1⟩ d)) ∧
    (∀ (d : MemDB) (k : Bytes) (v : GoBytes),
        MemDBBatch.write ⟨[⟨OpType.set, k, v⟩]⟩ d = d.set k v) ∧
    (∀ (d : MemDB) (k : Bytes),
        MemDBBatch.write ⟨[⟨OpType.delete, k, none⟩]⟩ d = d.delete k) ∧
    (((((MemDBBatch.mk []).set [120] (some [49])).delete [120]).set
        [120] (some [50])).write NewMemDB).get [120] = some [50] := by
  refine ⟨?_, fun d k v => rfl, fun d k => rfl, by decide⟩
  intro d os1 os2
  simp [MemDBBatch.write, List.foldl_append]

/-- C5: an iterator's captured key sequence is fixed at construction: a key
absent from the store when `IteratorPrefix` ran is not in the snapshot and
never appears in the traversal, even after `Set` (or a `Batch.Write` of a
single Set) makes it live in the store. -/
theorem c5_snapshot_stability (d : MemDB) (pre k : Bytes) (v : GoBytes)
    (h : k ∉ d.keysList) :
    (d.set k v).get k = v ∧
    ((((MemDBBatch.mk []).set k v).write d).get k = v) ∧
    k ∉ (d.prefixIterator pre).keys ∧
    ∀ fuel, k ∉ drain (d.prefixIterator pre) fuel := by
  refine ⟨get_set_self d k v, get_set_self d k v, ?_, ?_⟩
  · intro hk
    exact h ((mem_sortFilter d.keysList (fun key => hasPfx key pre) k).mp hk).1
  · intro fuel hk
    have hd : drain (d.prefixIterator pre) fuel
        = (d.prefixIterator pre).keys.take fuel := by
      show drain ⟨-1, (d.prefixIterator pre).keys⟩ fuel = _
      exact drain_neg_one _ _
    rw [hd] at hk
    have hmem : k ∈ (d.prefixIterator pre).keys := List.mem_of_mem_take hk
    exact h ((mem_sortFilter d.keysList (fun key => hasPfx key pre) k).mp hmem).1

theorem c5_snapshot_stability_witness :
    (([100] : Bytes) ∉ db3.keysList) ∧
    (db3.set [100] (some [52])).get [100] = some [52] ∧
    ([100] : Bytes) ∉ (db3.prefixIterator []).keys ∧
    ([100] : Bytes) ∉ drain (db3.prefixIterator []) 3 :=
  ⟨by decide,
   (c5_snapshot_stability db3 [] [100] (some [52]) (by decide)).1,
   (c5_snapshot_stability db3 [] [100] (some [52]) (by decide)).2.2.1,
   (c5_snapshot_stability db3 [] [100] (some [52]) (by decide)).2.2.2 3⟩

/-- C6: when no key of the captured sequence is `>= target`, `Seek(target)`
returns false and leaves the iterator (hence the cursor) unchanged, so a
subsequent `Next()` behaves exactly as if Seek had not been called. -/
theorem c6_seek_fail_unchanged (it : MemDBIterator) (target : Bytes)
    (h : it.keys.all (fun key => !(strGe key target)) = true) :
    it.seek target = (false, it) ∧ (it.seek target).2.next = it.next := by
  have hnone : it.keys.findIdx? (fun key => strGe key target) = none := by
    rw [List.findIdx?_eq_none_iff]
    intro x hx
    have hall := List.all_eq_true.mp h x hx
    revert hall
    cases strGe x target <;> simp
  refine ⟨?_, ?_⟩ <;> simp [MemDBIterator.seek, hnone]

theorem c6_seek_fail_unchanged_witness :
    ((MemDBIterator.mk (-1) [[97]]).keys.all (fun key => !(strGe key [122]))
      = true) ∧
    (MemDBIterator.mk (-1) [[97]]).seek [122]
      = (false, MemDBIterator.mk (-1) [[97]]) :=
  ⟨by decide,
   (c6_seek_fail_unchanged (MemDBIterator.mk (-1) [[97]]) [122] (by decide)).1⟩

/-- C7: `IteratorPrefixWithStart` never reads its prefix argument: for any
two prefix values the produced iterators (captured key sequence and initial
cursor position) are identical; only the start bound filters keys. -/
theorem c7_prefix_argument_ignored (d : MemDB) (p1 p2 start : Option Bytes)
    (r : Bool) :
    d.iteratorPrefixWithStart p1 start r = d.iteratorPrefixWithStart p2 start r :=
  rfl

/-- C8 (counterexample): with a store holding only `"b"` and
`IteratorPrefixWithStart(nil, "b", false)`, the cursor is at index 0 but
the first `Next()` does NOT advance to index 1: the snapshot has exactly
one key, so `Next()` returns false and the cursor stays at 0. -/
theorem c8_counterexample :
    ((NewMemDB.set [98] (some [50])).iteratorPrefixWithStart none
        (some [98]) false).last = 0 ∧
    ¬ (((NewMemDB.set [98] (some [50])).iteratorPrefixWithStart none
          (some [98]) false).next.1 = true ∧
       ((NewMemDB.set [98] (some [50])).iteratorPrefixWithStart none
          (some [98]) false).next.2.last = 1) := by
  decide

/-- C8 (amended): when `IteratorPrefixWithStart` gets a non-nil start and
the store holds a key `>= start`, construction performs a successful
`Seek(start)` and the cursor sits at index 0 (not before-first); the first
`Next()` advances to index 1 when the snapshot has at least two keys and
returns false (cursor unchanged) when it has exactly one; either way a
Next-before-read traversal never visits the snapshot's first key. -/
theorem c8_constructor_seek_skips_first (d : MemDB) (hw : d.WF)
    (pre : Option Bytes) (s : Bytes) (r : Bool)
    (hex : d.keysList.any (fun key => strGe key s) = true) :
    (d.iteratorPrefixWithStart pre (some s) r).last = 0 ∧
    (2 ≤ (d.iteratorPrefixWithStart pre (some s) r).keys.length →
      (d.iteratorPrefixWithStart pre (some s) r).next
        = (true, { d.iteratorPrefixWithStart pre (some s) r with last := 1 })) ∧
    ((d.iteratorPrefixWithStart pre (some s) r).keys.length ≤ 1 →
      (d.iteratorPrefixWithStart pre (some s) r).next
        = (false, d.iteratorPrefixWithStart pre (some s) r)) ∧
    (∀ h0, (d.iteratorPrefixWithStart pre (some s) r).keys.head? = some h0 →
      ∀ fuel, h0 ∉ drain (d.iteratorPrefixWithStart pre (some s) r) fuel) := by
  obtain ⟨x, hx, hxs⟩ := List.any_eq_true.mp hex
  have hxK : x ∈ d.getSortedKeys (some s) r :=
    (mem_getSortedKeys d (some s) r x).mpr ⟨hx, hxs⟩
  cases hK : d.getSortedKeys (some s) r with
  | nil => rw [hK] at hxK; cases hxK
  | cons a t =>
    have haK : a ∈ d.getSortedKeys (some s) r := by
      rw [hK]; exact List.mem_cons_self a t
    have ha : strGe a s = true := by
      have := (mem_getSortedKeys d (some s) r a).mp haK
      simpa using this.2
    have hfind : (d.getSortedKeys (some s) r).findIdx? (fun key => strGe key s)
        = some 0 := by
      rw [hK]
      simp [List.findIdx?_cons, ha]
    have hit : d.iteratorPrefixWithStart pre (some s) r
        = ⟨(0 : Int), d.getSortedKeys (some s) r⟩ := by
      show (MemDBIterator.seek ⟨-1, d.getSortedKeys (some s) r⟩ s).2 = _
      simp [MemDBIterator.seek, hfind]
    have hnodup : (d.getSortedKeys (some s) r).Nodup :=
      nodup_getSortedKeys d hw (some s) r
    refine ⟨by rw [hit], ?_, ?_, ?_⟩
    · intro h2
      rw [hit] at h2 ⊢
      have hc : ¬ (((d.getSortedKeys (some s) r).length : Int) - 1 ≤ (0 : Int)) := by
        simp only at h2
        omega
      simp [MemDBIterator.next, hc]
    · intro h1
      rw [hit] at h1 ⊢
      have hc : (((d.getSortedKeys (some s) r).length : Int) - 1 ≤ (0 : Int)) := by
        simp only at h1
        omega
      simp [MemDBIterator.next, hc]
    · intro h0 hh fuel hmem
      rw [hit] at hh hmem
      have hd : drain ⟨(0 : Int), d.getSortedKeys (some s) r⟩ fuel
          = ((d.getSortedKeys (some s) r).drop 1).take fuel := by
        have hdr := drain_eq fuel 1 (d.getSortedKeys (some s) r)
        have h10 : ((1 : Nat) : Int) - 1 = (0 : Int) := by norm_num
        rw [h10] at hdr
        exact hdr
      rw [hd, hK] at hmem
      rw [hK] at hh
      have h0a : h0 = a := by
        simp only [List.head?_cons, Option.some.injEq] at hh
        exact hh.symm
      subst h0a
      have hat : h0 ∈ t := List.mem_of_mem_take (by simpa using hmem)
      rw [hK] at hnodup
      exact (List.nodup_cons.mp hnodup).1 hat

theorem c8_constructor_seek_skips_first_witness :
    db3.WF ∧
    db3.keysList.any (fun key => strGe key [98]) = true ∧
    (db3.iteratorPrefixWithStart none (some [98]) false).last = 0 ∧
    (db3.iteratorPrefixWithStart none (some [98]) false).next
      = (true,
         { db3.iteratorPrefixWithStart none (some [98]) false with last := 1 }) ∧
    ([98] : Bytes) ∉ drain (db3.iteratorPrefixWithStart none (some [98]) false) 2 :=
  ⟨by decide, by decide,
   (c8_constructor_seek_skips_first db3 (by decide) none [98] false (by decide)).1,
   (c8_constructor_seek_skips_first db3 (by decide) none [98] false
      (by decide)).2.1 (by decide),
   (c8_constructor_seek_skips_first db3 (by decide) none [98] false
      (by decide)).2.2.2 [98] (by decide) 2⟩

/-- C9: reading a key that is not in the mapping returns the absent/nil
sentinel, not an error value (`Get` is a pure read in this model, so it has
no effect on the store). -/
theorem c9_get_absent_is_nil (d : MemDB) (k : Bytes) (h : k ∉ d.keysList) :
    d.get k = none :=
  get_not_mem d k h

theorem c9_get_absent_is_nil_witness :
    (([100] : Bytes) ∉ db3.keysList) ∧ db3.get [100] = none :=
  ⟨by decide, c9_get_absent_is_nil db3 [100] (by decide)⟩

/-- C10: a key stored with the nil value is indistinguishable from an
absent key through `Get`: after `Set(k, nil)` the read of `k` is `nil`,
the same result `Get` gives on any store that never stored `k`. -/
theorem c10_nil_value_collides_with_absent (d d2 : MemDB) (k : Bytes)
    (h : k ∉ d2.keysList) :
    (d.set k none).get k = none ∧ (d.set k none).get k = d2.get k := by
  have h1 := get_set_self d k none
  have h2 := get_not_mem d2 k h
  exact ⟨h1, h1.trans h2.symm⟩

theorem c10_nil_value_collides_with_absent_witness :
    (([98] : Bytes) ∉ NewMemDB.keysList) ∧
    (db3.set [98] none).get [98] = none ∧
    (db3.set [98] none).get [98] = NewMemDB.get [98] :=
  ⟨by decide,
   (c10_nil_value_collides_with_absent db3 NewMemDB [98] (by decide)).1,
   (c10_nil_value_collides_with_absent db3 NewMemDB [98] (by decide)).2⟩

end MemDBModel
